import Mathlib

/-!
Verification of the context-management and orchestration core of the
library-codegen agent.  Text is modelled as `List Char`; CPython string
semantics (slicing with negative indices, `str.rfind`, `str.strip`,
`str.lower`, `re.split` on paragraph separators) are embedded explicitly.
Numeric similarity scores are idealised as real numbers.
-/

namespace LibCodegen

/-! ### CPython string primitives -/

/-- Normalisation of an index for Python slicing: a negative index counts
from the end of the string, and the result is clamped into `[0, len]`. -/
def pyIdx (len : Nat) (i : Int) : Nat :=
  if i < 0 then ((len : Int) + i).toNat else min i.toNat len

/-- Python slice `s[a:b]` (step 1). -/
def pySlice (s : List Char) (a b : Int) : List Char :=
  (s.take (pyIdx s.length b)).drop (pyIdx s.length a)

/-- Python `s.rfind(c, a, b)` for a single-character needle: the largest
index `i` in the normalised range `[pyIdx len a, pyIdx len b)` with
`s[i] = c`, `-1` if none. -/
def pyRfind (s : List Char) (c : Char) (a b : Int) : Int :=
  match ((List.range s.length).filter
      (fun i => decide (pyIdx s.length a ≤ i) && decide (i < pyIdx s.length b) &&
        (s.getD i (Char.ofNat 0) == c))).getLast? with
  | some i => (i : Int)
  | none => -1

/-- Python `s.strip()`: whitespace removed from both ends. -/
def pyStrip (s : List Char) : List Char :=
  ((s.dropWhile Char.isWhitespace).reverse.dropWhile Char.isWhitespace).reverse

/-- Python `s.lower()` (ASCII case mapping). -/
def pyLower (s : List Char) : List Char :=
  s.map Char.toLower

/-- Python `needle in haystack` on strings: contiguous substring test. -/
def substrIn (needle haystack : List Char) : Bool :=
  decide (needle <:+: haystack)

/-- Scanner for `re.split(r'\n\n+', s)`: `cur` is the current segment
(reversed), `pending` counts the newlines just read and not yet committed.
A pending run of two or more newlines is a separator and is dropped; a
single pending newline belongs to the segment. -/
def splitParasGo : List Char → Nat → List Char → List (List Char)
  | cur, pending, [] =>
      if 2 ≤ pending then [cur.reverse, []]
      else [(List.replicate pending '\n' ++ cur).reverse]
  | cur, pending, c :: rest =>
      if c = '\n' then splitParasGo cur (pending + 1) rest
      else if 2 ≤ pending then cur.reverse :: splitParasGo [c] 0 rest
      else splitParasGo (c :: (List.replicate pending '\n' ++ cur)) 0 rest

/-- Python `re.split(r'\n\n+', s)`: segments separated by maximal runs of
two or more newlines. -/
def splitParagraphs (text : List Char) : List (List Char) :=
  splitParasGo [] 0 text

/-! ### SemanticChunker (src/src/context/chunker.py)

`chunk_size` and `chunk_overlap` are the constructor parameters.  The
sliding-window loop of `_split_by_size` is given explicit fuel because the
source loop does not always terminate (see the theorems on claim C10);
`none` means the fuel ran out before the loop exited. -/

/-- The separator `'\n\n'` used by `'\n\n'.join`. -/
def sep2 : List Char := ['\n', '\n']

/-- Python `'\n\n'.join(parts)`. -/
def joinChunk (ps : List (List Char)) : List Char :=
  List.intercalate sep2 ps

/-- Accumulator of the paragraph loop in `_split_by_semantic_boundaries`:
emitted chunks, the working chunk (a list of paragraphs) and its running
character length. -/
structure SemAcc where
  chunks : List (List Char)
  current : List (List Char)
  currentLen : Nat

/-- One iteration of the paragraph loop of `_split_by_semantic_boundaries`
(the stripped paragraph is written out where the source binds it to a
local). -/
def semStep (chunk_size chunk_overlap : Nat) (st : SemAcc) (para0 : List Char) : SemAcc :=
  if pyStrip para0 = [] then st
  else if chunk_size < st.currentLen + (pyStrip para0).length ∧ st.current ≠ [] then
    if 0 < chunk_overlap ∧ 1 < st.current.length then
      { chunks := st.chunks ++ [joinChunk st.current],
        current := [st.current.getLastD [], pyStrip para0],
        currentLen := (st.current.getLastD []).length + (pyStrip para0).length }
    else
      { chunks := st.chunks ++ [joinChunk st.current], current := [pyStrip para0],
        currentLen := (pyStrip para0).length }
  else
    { chunks := st.chunks, current := st.current ++ [pyStrip para0],
      currentLen := st.currentLen + (pyStrip para0).length }

/-- `SemanticChunker._split_by_semantic_boundaries`. -/
def split_by_semantic_boundaries (chunk_size chunk_overlap : Nat) (text : List Char) :
    List (List Char) :=
  let st := (splitParagraphs text).foldl (semStep chunk_size chunk_overlap) ⟨[], [], 0⟩
  if st.current ≠ [] then st.chunks ++ [joinChunk st.current] else st.chunks

/-- The window-end computation of one `_split_by_size` iteration: the raw
end `start + chunk_size`, moved back to just after the nearest
sentence-terminating punctuation found in the window (when the window ends
inside the text and the search lands after `start`). -/
def loopEnd (chunk_size : Nat) (text : List Char) (start : Int) : Int :=
  let end0 : Int := start + (chunk_size : Int)
  if end0 < (text.length : Int) then
    let se := max (pyRfind text '.' start end0)
      (max (pyRfind text '!' start end0) (pyRfind text '?' start end0))
    if start < se then se + 1 else end0
  else end0

/-- The `while start < text_length` loop of `SemanticChunker._split_by_size`,
with fuel.  `start` is a Python integer (it can go negative). -/
def split_by_size_loop (chunk_size chunk_overlap : Nat) (text : List Char) :
    Nat → Int → List (List Char) → Option (List (List Char))
  | 0, _, _ => none
  | fuel + 1, start, acc =>
      if start < (text.length : Int) then
        let endIdx := loopEnd chunk_size text start
        let chunk := pyStrip (pySlice text start endIdx)
        let acc' := if chunk = [] then acc else acc ++ [chunk]
        let start' := if endIdx < (text.length : Int) then endIdx - (chunk_overlap : Int) else endIdx
        split_by_size_loop chunk_size chunk_overlap text fuel start' acc'
      else some acc

/-- `SemanticChunker._split_by_size`. -/
def split_by_size (chunk_size chunk_overlap : Nat) (fuel : Nat) (text : List Char) :
    Option (List (List Char)) :=
  split_by_size_loop chunk_size chunk_overlap text fuel 0 []

/-- `SemanticChunker.chunk_text`: semantic pass, then size-based re-splitting
of any chunk longer than `chunk_size`. -/
def chunk_text (chunk_size chunk_overlap : Nat) (fuel : Nat) (text : List Char) :
    Option (List (List Char)) :=
  (split_by_semantic_boundaries chunk_size chunk_overlap text).foldlM
    (fun acc chunk =>
      if chunk_size < chunk.length then
        (split_by_size chunk_size chunk_overlap fuel chunk).map (fun l => acc ++ l)
      else some (acc ++ [chunk]))
    []

/-- Length of the longest string that is both a suffix of `a` and a prefix
of `b`: the textual overlap shared between adjacent chunks `a` and `b`. -/
def overlapLen (a b : List Char) : Nat :=
  ((List.range (min a.length b.length + 1)).filter
    (fun k => a.drop (a.length - k) == b.take k)).foldr max 0

/-- A non-empty piece of text whose first character is not whitespace (the
shape of every stripped paragraph and of every chunk the semantic pass
emits). -/
def GoodChunk (p : List Char) : Prop :=
  ∃ c cs, p = c :: cs ∧ ¬c.isWhitespace

/-- The input exhibiting non-termination of `_split_by_size`
(claim C10): a sentence boundary right at the window start. -/
def loopText : List Char := "a.aaaaaaaaaaaaaaaaaa".data

/-! ### VectorDatabase (src/src/context/database.py)

Vectors and similarity scores are idealised as real numbers. -/

/-- A stored row of the `embeddings` table, with its metadata mapping
`{source, type}` flattened into two fields. -/
structure EmbeddingRecord where
  id : Nat
  text : List Char
  embedding : List ℝ
  metadata_source : String
  metadata_type : String

/-- A transient search result as built by `VectorDatabase.search`. -/
structure SearchResult where
  id : Nat
  text : List Char
  similarity : ℝ
  metadata_source : String
  metadata_type : String

/-- Dot product of two vectors (`np.dot`). -/
def dot : List ℝ → List ℝ → ℝ
  | a :: v, b :: w => a * b + dot v w
  | _, _ => 0

/-- Euclidean norm (`np.linalg.norm`). -/
noncomputable def vnorm (v : List ℝ) : ℝ :=
  Real.sqrt (dot v v)

/-- `VectorDatabase._cosine_similarity`: zero when either operand has zero
norm, otherwise the normalised dot product. -/
noncomputable def cosine_similarity (v w : List ℝ) : ℝ :=
  if vnorm v = 0 ∨ vnorm w = 0 then 0 else dot v w / (vnorm v * vnorm w)

/-- The comparison `VectorDatabase.search` sorts by: descending similarity. -/
def simDesc (a b : SearchResult) : Prop :=
  b.similarity ≤ a.similarity

noncomputable instance : DecidableRel simDesc :=
  fun a b => Real.decidableLE b.similarity a.similarity

instance : IsTotal SearchResult simDesc :=
  ⟨fun a b => le_total b.similarity a.similarity⟩

instance : IsTrans SearchResult simDesc :=
  ⟨fun _ _ _ hab hbc => le_trans hbc hab⟩

/-- `VectorDatabase.search`: cosine similarity against every stored row,
sorted by non-increasing similarity, truncated to `top_k`. -/
noncomputable def search (records : List EmbeddingRecord) (query_embedding : List ℝ)
    (top_k : Nat) : List SearchResult :=
  let results := records.map (fun r =>
    { id := r.id, text := r.text,
      similarity := cosine_similarity query_embedding r.embedding,
      metadata_source := r.metadata_source, metadata_type := r.metadata_type })
  (List.insertionSort simDesc results).take top_k

/-! ### ContextManager retrieval (src/src/context/manager.py) -/

/-- A search result extended with the `adjusted_score` key added by
`ContextManager._rank_and_filter`. -/
structure RankedResult where
  result : SearchResult
  adjusted_score : ℝ

/-- The keywords whose presence in the query boosts code examples. -/
def example_keywords : List String :=
  ["example", "how to", "usage"]

/-- Whether the lowercased query mentions one of the example keywords. -/
def needs_examples (query : String) : Bool :=
  example_keywords.any (fun kw => substrIn kw.data (pyLower query.data))

/-- Scoring of one candidate in `_rank_and_filter`: raw similarity, boosted
by the factor 1.3 for code examples when the query asks for examples. -/
def score_result (query : String) (r : SearchResult) : RankedResult :=
  let score := r.similarity
  let boosted :=
    if needs_examples query ∧ r.metadata_type = "code_example" then score * 1.3 else score
  { result := r, adjusted_score := boosted }

/-- The comparison `_rank_and_filter` sorts by: descending adjusted score. -/
def adjDesc (a b : RankedResult) : Prop :=
  b.adjusted_score ≤ a.adjusted_score

noncomputable instance : DecidableRel adjDesc :=
  fun a b => Real.decidableLE b.adjusted_score a.adjusted_score

instance : IsTotal RankedResult adjDesc :=
  ⟨fun a b => le_total b.adjusted_score a.adjusted_score⟩

instance : IsTrans RankedResult adjDesc :=
  ⟨fun _ _ _ hab hbc => le_trans hbc hab⟩

/-- `ContextManager._rank_and_filter`. -/
noncomputable def rank_and_filter (results : List SearchResult) (query : String) :
    List RankedResult :=
  List.insertionSort adjDesc (results.map (score_result query))

/-- `ContextManager._estimate_tokens`: `len(text) // 4`. -/
def estimate_tokens (text : List Char) : Nat :=
  text.length / 4

/-- The token-budgeted accumulation loop of `retrieve_relevant_context`:
texts are appended while the running estimate stays within `max_tokens`;
the first candidate that would exceed the budget stops the loop. -/
def select_context (max_tokens : Nat) : List RankedResult → Nat → List (List Char)
  | [], _ => []
  | r :: rs, total =>
      let tokens := estimate_tokens r.result.text
      if total + tokens ≤ max_tokens then
        r.result.text :: select_context max_tokens rs (total + tokens)
      else []

/-- `ContextManager.retrieve_relevant_context`, parametrised by the store
contents and the embedded query vector (embedding is an external
collaborator): over-fetch `2 * top_k` candidates, re-rank, then select the
first `top_k` under the token budget. -/
noncomputable def retrieve_relevant_context (records : List EmbeddingRecord)
    (query_embedding : List ℝ) (query : String) (top_k max_tokens : Nat) :
    List (List Char) :=
  let results := search records query_embedding (top_k * 2)
  let filtered := rank_and_filter results query
  select_context max_tokens (filtered.take top_k) 0

/-! ### Workflow state and stage functions (src/src/agent/state.py,
nodes.py, graph.py)

Each stage is parametrised by the data its external collaborator returns
(LLM completion, web search, crawler, repository analyzer, extractor,
context retrieval): the stage embeds the pure transformation the source
performs on the shared state. -/

/-- One entry of `search_results` (a Tavily hit): a dict with optional
`url` and page content. -/
structure SearchHit where
  url : Option String
  content : String
deriving DecidableEq

/-- The crawler's return value: a dict with a `results` list. -/
structure CrawledDoc where
  results : List SearchHit
deriving DecidableEq

/-- The repository analyzer's return value. -/
structure GithubInfo where
  found : Bool
  readme : Option String
deriving DecidableEq

/-- A conversation message (`HumanMessage` / `AIMessage` / `SystemMessage`). -/
inductive AgentMessage where
  | human (content : String)
  | ai (content : String)
  | system (content : String)
deriving DecidableEq

/-- `AgentState` (state.py): the shared workflow record.  Fields that the
TypedDict marks `Optional` (or that the initial state leaves unset) are
`Option`s; `confidence_score` is idealised as a rational. -/
structure AgentState where
  library_name : String
  task : String
  messages : List AgentMessage
  search_results : Option (List SearchHit)
  crawled_documentation : Option CrawledDoc
  github_info : Option GithubInfo
  code_examples : Option (List String)
  indexed_content : Option (List String)
  relevant_context : Option (List String)
  context_summary : Option String
  generated_code : Option String
  explanation : Option String
  confidence_score : ℚ
  iteration_count : Nat
  error_message : Option String
  next_action : Option String
deriving DecidableEq

/-- The analysis prompt built by `analyze_query`. -/
def analysis_prompt (s : AgentState) : String :=
  "\nLibrary: " ++ s.library_name ++ "\nTask: " ++ s.task ++
  "\n\nWhat information should we gather? Respond with a JSON object containing:\n- needs_documentation: bool\n- needs_github_analysis: bool\n- needs_code_examples: bool\n- search_query: str (optimized search query for documentation)\n"

/-- `AgentNodes.analyze_query`, with the LLM completion as parameter. -/
def analyze_query (response : String) (s : AgentState) : AgentState :=
  { s with messages := [AgentMessage.human (analysis_prompt s), AgentMessage.ai response],
           next_action := some "search_documentation" }

/-- `AgentNodes.search_documentation`, with the web-search result as
parameter. -/
def search_documentation (results : List SearchHit) (s : AgentState) : AgentState :=
  { s with search_results := some results, next_action := some "crawl_documentation" }

/-- `AgentNodes.crawl_documentation`, with the crawler as parameter: when
there are no search results or the top result has no usable (falsy) URL,
the stage routes onward without crawling. -/
def crawl_documentation (crawl : String → CrawledDoc) (s : AgentState) : AgentState :=
  match s.search_results with
  | none => { s with next_action := some "analyze_github" }
  | some [] => { s with next_action := some "analyze_github" }
  | some (top :: _) =>
      match top.url with
      | none => { s with next_action := some "analyze_github" }
      | some u =>
          if u = "" then { s with next_action := some "analyze_github" }
          else { s with crawled_documentation := some (crawl u),
                        next_action := some "analyze_github" }

/-- `AgentNodes.analyze_github`, with the repository analysis as parameter. -/
def analyze_github (info : GithubInfo) (s : AgentState) : AgentState :=
  { s with github_info := some info, next_action := some "extract_examples" }

/-- `AgentNodes.extract_examples`, with the extractor's output as
parameter. -/
def extract_examples (examples : List String) (s : AgentState) : AgentState :=
  { s with code_examples := some examples, next_action := some "manage_context" }

/-- `AgentNodes.manage_context`, with the retrieved context as parameter
(indexing writes only to the external store). -/
def manage_context (retrieved : List String) (s : AgentState) : AgentState :=
  { s with relevant_context := some retrieved, next_action := some "generate_code" }

/-- `AgentNodes.generate_code`, with the LLM completion as parameter. -/
def generate_code (response : String) (s : AgentState) : AgentState :=
  { s with generated_code := some response,
           messages := s.messages ++ [AgentMessage.ai response],
           next_action := some "validate_code" }

/-- `AgentNodes.validate_code`: the confidence heuristic (case-insensitive
substring check of the library name in the generated code) and the
unconditional routing to `end`. -/
def validate_code (s : AgentState) : AgentState :=
  let code := s.generated_code.getD ""
  let s' :=
    if substrIn (pyLower s.library_name.data) (pyLower code.data) then
      { s with confidence_score := 0.8 }
    else
      { s with confidence_score := 0.3,
               error_message := some "Generated code may not use the specified library" }
  { s' with next_action := some "end" }

/-- `AgentNodes.should_continue` as the source writes it: the iteration cap
is the literal `10`. -/
def should_continue (s : AgentState) : String :=
  let next_action := s.next_action.getD "end"
  if 10 ≤ s.iteration_count then "end" else next_action

/-- Transition selection as the spec describes it, for comparison with
`should_continue`: the cap is the configured `max_iterations`
(`settings.max_iterations`), which the source function never reads. -/
def should_continue_spec (max_iterations : Nat) (s : AgentState) : String :=
  let next_action := s.next_action.getD "end"
  if max_iterations ≤ s.iteration_count then "end" else next_action

/-- The initial state built by `CodeGenAgent.generate_code` (graph.py). -/
def initial_state (library_name task : String) : AgentState :=
  { library_name := library_name, task := task, messages := [],
    search_results := none, crawled_documentation := none, github_info := none,
    code_examples := none, indexed_content := none, relevant_context := none,
    context_summary := none, generated_code := none, explanation := none,
    confidence_score := 0, iteration_count := 0,
    error_message := none, next_action := none }

/-- The statically declared edge map of the `crawl_documentation` node
(graph.py): `next_action` value to successor node (`END` is terminal). -/
def crawl_documentation_edges : List (String × String) :=
  [("analyze_github", "analyze_github"), ("end", "END")]

/-- One full pass of the stage pipeline in graph order, each stage fed its
collaborator's output. -/
def run_pipeline (r1 : String) (r2 : List SearchHit) (crawl : String → CrawledDoc)
    (info : GithubInfo) (examples : List String) (retrieved : List String)
    (r7 : String) (s : AgentState) : AgentState :=
  validate_code (generate_code r7 (manage_context retrieved (extract_examples examples
    (analyze_github info (crawl_documentation crawl (search_documentation r2
      (analyze_query r1 s)))))))

/-! ## Theorems -/

/-! ### Workflow state machine: claims C1, C7, C8, C9 -/

/-- C1: the source `should_continue` caps the run at the hard-coded literal
`10`, not at the configured `max_iterations`.  With `max_iterations`
configured to 5 and a state at `iteration_count = 5`, the code returns the
stage's requested action while the behaviour the spec describes (honouring
the configured cap) returns `"end"`. -/
theorem should_continue_ignores_configured_cap :
    should_continue { initial_state "pandas" "parse a csv" with
      iteration_count := 5, next_action := some "crawl_documentation" } =
        "crawl_documentation" ∧
    should_continue_spec 5 { initial_state "pandas" "parse a csv" with
      iteration_count := 5, next_action := some "crawl_documentation" } = "end" ∧
    ("crawl_documentation" : String) ≠ "end" :=
  ⟨rfl, rfl, by decide⟩

/-- C7: `validate_code` sets `confidence_score` to 0.8 when the generated
code contains the library name as a case-insensitive substring, and
otherwise sets it to 0.3 and records the error message; in both cases it
routes to `"end"`. -/
theorem validate_code_confidence (s : AgentState) :
    (validate_code s).next_action = some "end" ∧
    (validate_code s).confidence_score =
      (if substrIn (pyLower s.library_name.data) (pyLower (s.generated_code.getD "").data)
        then (0.8 : ℚ) else 0.3) ∧
    (validate_code s).error_message =
      (if substrIn (pyLower s.library_name.data) (pyLower (s.generated_code.getD "").data)
        then s.error_message
        else some "Generated code may not use the specified library") := by
  unfold validate_code
  by_cases h :
      substrIn (pyLower s.library_name.data) (pyLower (s.generated_code.getD "").data) = true <;>
    simp [h]

/-- C8: when the state has no search results, or the first search result
carries no usable URL, `crawl_documentation` only routes onward to
`analyze_github`: the state is otherwise unchanged (in particular
`crawled_documentation` is not set), the result does not depend on the
crawler (no crawl is attempted), and the node's declared edge map carries
the `analyze_github` action to the `analyze_github` node. -/
theorem crawl_documentation_degrades (s : AgentState) (c₁ c₂ : String → CrawledDoc)
    (h : s.search_results = none ∨ s.search_results = some [] ∨
      ∃ top rest, s.search_results = some (top :: rest) ∧
        (top.url = none ∨ top.url = some "")) :
    crawl_documentation c₁ s = { s with next_action := some "analyze_github" } ∧
    crawl_documentation c₁ s = crawl_documentation c₂ s ∧
    (crawl_documentation c₁ s).crawled_documentation = s.crawled_documentation ∧
    crawl_documentation_edges.lookup "analyze_github" = some "analyze_github" := by
  have key : ∀ c : String → CrawledDoc,
      crawl_documentation c s = { s with next_action := some "analyze_github" } := by
    intro c
    rcases h with h | h | ⟨top, rest, h, hu⟩
    · simp [crawl_documentation, h]
    · simp [crawl_documentation, h]
    · rcases hu with hu | hu <;> simp [crawl_documentation, h, hu]
  exact ⟨key c₁, (key c₁).trans (key c₂).symm, by rw [key c₁], rfl⟩

/-- C8 witness: a state with no search results at all. -/
theorem crawl_documentation_degrades_witness :
    crawl_documentation (fun _ => CrawledDoc.mk []) (initial_state "numpy" "sum an array") =
      { initial_state "numpy" "sum an array" with next_action := some "analyze_github" } :=
  (crawl_documentation_degrades (initial_state "numpy" "sum an array")
    (fun _ => CrawledDoc.mk []) (fun _ => CrawledDoc.mk [⟨none, ""⟩]) (Or.inl rfl)).1

/-- Helper for C9: `analyze_query` never touches `iteration_count`. -/
theorem analyze_query_iteration (r : String) (s : AgentState) :
    (analyze_query r s).iteration_count = s.iteration_count := rfl

/-- Helper for C9: `search_documentation` never touches `iteration_count`. -/
theorem search_documentation_iteration (r : List SearchHit) (s : AgentState) :
    (search_documentation r s).iteration_count = s.iteration_count := rfl

/-- Helper for C9: `crawl_documentation` never touches `iteration_count`. -/
theorem crawl_documentation_iteration (c : String → CrawledDoc) (s : AgentState) :
    (crawl_documentation c s).iteration_count = s.iteration_count := by
  cases hsr : s.search_results with
  | none => simp [crawl_documentation, hsr]
  | some l =>
      cases l with
      | nil => simp [crawl_documentation, hsr]
      | cons top rest =>
          cases hu : top.url with
          | none => simp [crawl_documentation, hsr, hu]
          | some u => by_cases h2 : u = "" <;> simp [crawl_documentation, hsr, hu, h2]

/-- Helper for C9: `analyze_github` never touches `iteration_count`. -/
theorem analyze_github_iteration (i : GithubInfo) (s : AgentState) :
    (analyze_github i s).iteration_count = s.iteration_count := rfl

/-- Helper for C9: `extract_examples` never touches `iteration_count`. -/
theorem extract_examples_iteration (e : List String) (s : AgentState) :
    (extract_examples e s).iteration_count = s.iteration_count := rfl

/-- Helper for C9: `manage_context` never touches `iteration_count`. -/
theorem manage_context_iteration (r : List String) (s : AgentState) :
    (manage_context r s).iteration_count = s.iteration_count := rfl

/-- Helper for C9: `generate_code` never touches `iteration_count`. -/
theorem generate_code_iteration (r : String) (s : AgentState) :
    (generate_code r s).iteration_count = s.iteration_count := rfl

/-- Helper for C9: `validate_code` never touches `iteration_count`. -/
theorem validate_code_iteration (s : AgentState) :
    (validate_code s).iteration_count = s.iteration_count := by
  unfold validate_code
  by_cases h :
      substrIn (pyLower s.library_name.data) (pyLower (s.generated_code.getD "").data) = true <;>
    simp [h]

/-- C9: every stage function returns a state whose `iteration_count` equals
the input's, the initial state sets it to 0, and a full pipeline pass
therefore leaves it at 0 for the whole run (so it is monotonically
non-decreasing across stage executions). -/
theorem stages_preserve_iteration_count :
    (∀ r s, (analyze_query r s).iteration_count = s.iteration_count) ∧
    (∀ r s, (search_documentation r s).iteration_count = s.iteration_count) ∧
    (∀ c s, (crawl_documentation c s).iteration_count = s.iteration_count) ∧
    (∀ i s, (analyze_github i s).iteration_count = s.iteration_count) ∧
    (∀ e s, (extract_examples e s).iteration_count = s.iteration_count) ∧
    (∀ r s, (manage_context r s).iteration_count = s.iteration_count) ∧
    (∀ r s, (generate_code r s).iteration_count = s.iteration_count) ∧
    (∀ s, (validate_code s).iteration_count = s.iteration_count) ∧
    (∀ lib task, (initial_state lib task).iteration_count = 0) ∧
    (∀ r1 r2 c i e rt r7 lib task,
      (run_pipeline r1 r2 c i e rt r7 (initial_state lib task)).iteration_count = 0) := by
  refine ⟨analyze_query_iteration, search_documentation_iteration,
    crawl_documentation_iteration, analyze_github_iteration, extract_examples_iteration,
    manage_context_iteration, generate_code_iteration, validate_code_iteration,
    fun lib task => rfl, ?_⟩
  intro r1 r2 c i e rt r7 lib task
  simp only [run_pipeline, validate_code_iteration, generate_code_iteration,
    manage_context_iteration, extract_examples_iteration, analyze_github_iteration,
    crawl_documentation_iteration, search_documentation_iteration, analyze_query_iteration,
    initial_state]

/-! ### Claims C2 and C6: retrieval budget and re-ranking policy -/

/-- Helper for C2: full characterisation of the budget loop.  It returns
the texts of a prefix of its input, the running estimate stays within the
budget, and the first candidate that would exceed the budget stops the
loop (no later candidate is looked at). -/
theorem select_context_characterization (maxT : Nat) :
    ∀ (l : List RankedResult) (total : Nat), total ≤ maxT →
      ∃ taken rest, l = taken ++ rest ∧
        select_context maxT l total = taken.map (fun r => r.result.text) ∧
        total + (taken.map (fun r => estimate_tokens r.result.text)).sum ≤ maxT ∧
        ∀ r, rest.head? = some r →
          maxT < total + (taken.map (fun r => estimate_tokens r.result.text)).sum
            + estimate_tokens r.result.text := by
  intro l
  induction l with
  | nil =>
      intro total h
      exact ⟨[], [], rfl, rfl, by simpa using h, by intro r hr; simp at hr⟩
  | cons x xs ih =>
      intro total h
      by_cases hx : total + estimate_tokens x.result.text ≤ maxT
      · obtain ⟨taken, rest, hsplit, hsel, hsum, hstop⟩ :=
          ih (total + estimate_tokens x.result.text) hx
        refine ⟨x :: taken, rest, by rw [List.cons_append, ← hsplit], ?_, ?_, ?_⟩
        · simp only [select_context, if_pos hx, hsel, List.map_cons]
        · simp only [List.map_cons, List.sum_cons]
          omega
        · intro r hr
          have := hstop r hr
          simp only [List.map_cons, List.sum_cons]
          omega
      · refine ⟨[], x :: xs, rfl, ?_, by simpa using h, ?_⟩
        · simp only [select_context, if_neg hx, List.map_nil]
        · intro r hr
          rw [List.head?_cons, Option.some_inj] at hr
          subst hr
          simp only [List.map_nil, List.sum_nil, Nat.add_zero]
          omega

/-- C2: the texts `retrieve_relevant_context` returns have cumulative
estimated tokens (`Σ len(text) // 4`) within the configured budget, for
every store contents, query vector, query, `k` and budget; moreover they
are the texts of a prefix of the re-ranked `top_k`-truncated candidate
list, and the first candidate whose estimate would push the running total
over the budget stops the accumulation (no later candidate is considered,
even an individually smaller one). -/
theorem retrieve_relevant_context_budget (records : List EmbeddingRecord)
    (query_embedding : List ℝ) (query : String) (top_k max_tokens : Nat) :
    ((retrieve_relevant_context records query_embedding query top_k max_tokens).map
        estimate_tokens).sum ≤ max_tokens ∧
    ∃ taken rest,
      (rank_and_filter (search records query_embedding (top_k * 2)) query).take top_k
        = taken ++ rest ∧
      retrieve_relevant_context records query_embedding query top_k max_tokens
        = taken.map (fun r => r.result.text) ∧
      ∀ r, rest.head? = some r →
        max_tokens < (taken.map (fun r => estimate_tokens r.result.text)).sum
          + estimate_tokens r.result.text := by
  obtain ⟨taken, rest, hsplit, hsel, hsum, hstop⟩ :=
    select_context_characterization max_tokens
      ((rank_and_filter (search records query_embedding (top_k * 2)) query).take top_k) 0
      (Nat.zero_le _)
  have hret : retrieve_relevant_context records query_embedding query top_k max_tokens
      = taken.map (fun r => r.result.text) := by
    simpa [retrieve_relevant_context] using hsel
  refine ⟨?_, taken, rest, hsplit, hret, ?_⟩
  · rw [hret, List.map_map]
    have h2 : (taken.map (estimate_tokens ∘ fun r => r.result.text)).sum
        = (taken.map (fun r => estimate_tokens r.result.text)).sum := rfl
    omega
  · intro r hr
    have := hstop r hr
    omega

/-- C6: `_rank_and_filter` returns a permutation of its scored input,
sorted by adjusted score in descending order, where a candidate's adjusted
score is its raw cosine similarity multiplied by 1.3 exactly when the query
(case-insensitively) mentions an example keyword and the candidate's
metadata type is `code_example`, and the raw similarity otherwise. -/
theorem rank_and_filter_policy (results : List SearchResult) (query : String) :
    List.Sorted adjDesc (rank_and_filter results query) ∧
    (rank_and_filter results query).Perm (results.map (score_result query)) ∧
    ∀ x ∈ rank_and_filter results query,
      x.adjusted_score =
        (if needs_examples query ∧ x.result.metadata_type = "code_example"
          then x.result.similarity * 1.3 else x.result.similarity) := by
  refine ⟨List.sorted_insertionSort adjDesc _, List.perm_insertionSort adjDesc _, ?_⟩
  intro x hx
  have hx' : x ∈ results.map (score_result query) :=
    (List.perm_insertionSort adjDesc _).mem_iff.mp hx
  obtain ⟨r, hr, rfl⟩ := List.mem_map.mp hx'
  by_cases hb : needs_examples query ∧ r.metadata_type = "code_example"
  · simp [score_result, hb]
  · simp [score_result, hb]

/-! ### Claim C5: similarity search -/

/-- The dot product of a vector with itself is non-negative. -/
theorem dot_self_nonneg (v : List ℝ) : 0 ≤ dot v v := by
  induction v with
  | nil => simp [dot]
  | cons a t ih =>
      have h : dot (a :: t) (a :: t) = a * a + dot t t := rfl
      rw [h]
      nlinarith [mul_self_nonneg a]

/-- Cauchy-Schwarz for the truncating dot product. -/
theorem dot_sq_le (v : List ℝ) : ∀ w, (dot v w) ^ 2 ≤ dot v v * dot w w := by
  induction v with
  | nil =>
      intro w
      simp [dot]
  | cons a t ih =>
      intro w
      cases w with
      | nil =>
          have h1 : dot (a :: t) ([] : List ℝ) = 0 := rfl
          have h2 : dot ([] : List ℝ) ([] : List ℝ) = 0 := rfl
          rw [h1, h2]
          simp
      | cons b u =>
          have hA := dot_self_nonneg t
          have hB := dot_self_nonneg u
          have h := ih u
          have hd : 0 ≤ dot t t * dot u u - (dot t u) ^ 2 := by linarith
          have e1 : dot (a :: t) (b :: u) = a * b + dot t u := rfl
          have e2 : dot (a :: t) (a :: t) = a * a + dot t t := rfl
          have e3 : dot (b :: u) (b :: u) = b * b + dot u u := rfl
          rw [e1, e2, e3]
          rcases eq_or_lt_of_le hB with hB0 | hBpos
          · have hd2 : (dot t u) ^ 2 = 0 := by nlinarith [sq_nonneg (dot t u)]
            have hd0 : dot t u = 0 := pow_eq_zero_iff two_ne_zero |>.mp hd2
            rw [hd0, ← hB0]
            nlinarith [mul_nonneg hA (mul_self_nonneg b)]
          · nlinarith [sq_nonneg (a * dot u u - b * dot t u), mul_nonneg hBpos.le hd,
              mul_nonneg (mul_self_nonneg b) hd]

/-- The dot product is bounded by the product of the norms. -/
theorem abs_dot_le (v w : List ℝ) : |dot v w| ≤ vnorm v * vnorm w := by
  have h := dot_sq_le v w
  have hA := dot_self_nonneg v
  have h1 : vnorm v * vnorm w = Real.sqrt (dot v v * dot w w) := (Real.sqrt_mul hA _).symm
  rw [h1, ← Real.sqrt_sq_eq_abs]
  exact Real.sqrt_le_sqrt h

/-- Cosine similarity always lies in `[-1, 1]`. -/
theorem cosine_similarity_mem_Icc (v w : List ℝ) :
    -1 ≤ cosine_similarity v w ∧ cosine_similarity v w ≤ 1 := by
  unfold cosine_similarity
  split_ifs with h
  · norm_num
  · push_neg at h
    obtain ⟨hv, hw⟩ := h
    have hv0 : 0 < vnorm v :=
      lt_of_le_of_ne (by unfold vnorm; exact Real.sqrt_nonneg _) (Ne.symm hv)
    have hw0 : 0 < vnorm w :=
      lt_of_le_of_ne (by unfold vnorm; exact Real.sqrt_nonneg _) (Ne.symm hw)
    have hpos : 0 < vnorm v * vnorm w := mul_pos hv0 hw0
    have habs := abs_le.mp (abs_dot_le v w)
    constructor
    · rw [le_div_iff₀ hpos]
      linarith [habs.1]
    · rw [div_le_one hpos]
      exact habs.2

/-- The division guard: similarity is exactly 0 when either operand has
zero norm. -/
theorem cosine_similarity_zero (v w : List ℝ) (h : vnorm v = 0 ∨ vnorm w = 0) :
    cosine_similarity v w = 0 := by
  unfold cosine_similarity
  rw [if_pos h]

/-- C5: for every store contents and query vector (of the store's
dimension), `search` returns at most `k` results, sorted by non-increasing
similarity; every returned similarity lies in `[-1, 1]`; and cosine
similarity involving any operand of zero norm is exactly 0 (the division
is guarded). -/
theorem search_sorted_bounded (records : List EmbeddingRecord) (query_embedding : List ℝ)
    (k : Nat) (hdim : ∀ r ∈ records, r.embedding.length = query_embedding.length) :
    (search records query_embedding k).length ≤ k ∧
    List.Sorted simDesc (search records query_embedding k) ∧
    (∀ x ∈ search records query_embedding k, -1 ≤ x.similarity ∧ x.similarity ≤ 1) ∧
    (∀ v w : List ℝ, vnorm v = 0 ∨ vnorm w = 0 → cosine_similarity v w = 0) := by
  refine ⟨?_, ?_, ?_, fun v w h => cosine_similarity_zero v w h⟩
  · simp only [search]
    rw [List.length_take]
    omega
  · simp only [search]
    exact List.Pairwise.sublist (List.take_sublist _ _)
      (List.sorted_insertionSort simDesc _)
  · intro x hx
    simp only [search] at hx
    have hx1 := List.mem_of_mem_take hx
    have hx2 := (List.perm_insertionSort simDesc _).mem_iff.mp hx1
    obtain ⟨r, hr, rfl⟩ := List.mem_map.mp hx2
    exact cosine_similarity_mem_Icc query_embedding r.embedding

/-- C5 witness: a one-record store and a dimension-matching query. -/
theorem search_sorted_bounded_witness :
    (search [⟨1, "doc".data, [3, 4], "u", "documentation"⟩] [1, 0] 2).length ≤ 2 :=
  (search_sorted_bounded [⟨1, "doc".data, [3, 4], "u", "documentation"⟩] [1, 0] 2
    (by intro r hr; rw [List.mem_singleton] at hr; subst hr; rfl)).1

/-! ### Claims C3 and C4: chunker properties -/

/-- Helper: a fold of `max` over a list of bounded naturals is bounded. -/
theorem foldr_max_le {l : List Nat} {n : Nat} (h : ∀ x ∈ l, x ≤ n) : l.foldr max 0 ≤ n := by
  induction l with
  | nil => simp
  | cons a t ih =>
      simp only [List.foldr_cons]
      exact max_le (h a (List.mem_cons_self a t)) (ih fun x hx => h x (List.mem_cons_of_mem a hx))

/-- The shared overlap of two chunks is no longer than either chunk. -/
theorem overlapLen_le_min (a b : List Char) : overlapLen a b ≤ min a.length b.length := by
  unfold overlapLen
  refine foldr_max_le ?_
  intro x hx
  have h1 := (List.mem_filter.mp hx).1
  have h2 := List.mem_range.mp h1
  omega

/-- `dropWhile` never lengthens a list. -/
theorem dropWhile_length_le (p : Char → Bool) (l : List Char) :
    (l.dropWhile p).length ≤ l.length := by
  induction l with
  | nil => simp [List.dropWhile]
  | cons a t ih =>
      by_cases h : p a
      · rw [List.dropWhile_cons_of_pos h]
        simp only [List.length_cons]
        omega
      · rw [List.dropWhile_cons_of_neg h]

/-- `pyStrip` never lengthens a list. -/
theorem pyStrip_length_le (s : List Char) : (pyStrip s).length ≤ s.length := by
  unfold pyStrip
  rw [List.length_reverse]
  calc ((s.dropWhile Char.isWhitespace).reverse.dropWhile Char.isWhitespace).length
      ≤ (s.dropWhile Char.isWhitespace).reverse.length := dropWhile_length_le _ _
    _ = (s.dropWhile Char.isWhitespace).length := List.length_reverse _
    _ ≤ s.length := dropWhile_length_le _ _

/-- `pyIdx` lands in `[0, len]`. -/
theorem pyIdx_le (len : Nat) (i : Int) : pyIdx len i ≤ len := by
  unfold pyIdx
  split_ifs with h <;> omega

/-- The length of a Python slice. -/
theorem pySlice_length (s : List Char) (a b : Int) :
    (pySlice s a b).length = pyIdx s.length b - pyIdx s.length a := by
  unfold pySlice
  rw [List.length_drop, List.length_take]
  have := pyIdx_le s.length b
  omega

/-- A slice whose window is at most `k` wide (and does not run from a
non-negative start to a negative end) has at most `k` characters. -/
theorem pySlice_length_le (s : List Char) (a b : Int) (k : Nat)
    (h1 : b ≤ a + (k : Int)) (h2 : a < 0 ∨ 0 ≤ b) :
    (pySlice s a b).length ≤ k := by
  rw [pySlice_length]
  unfold pyIdx
  split_ifs <;> omega

/-- Helper: the last element of a list is an element of it. -/
theorem getLast?_mem' : ∀ (l : List Nat) (i : Nat), l.getLast? = some i → i ∈ l := by
  intro l
  induction l with
  | nil => intro i h; simp at h
  | cons a t ih =>
      intro i h
      cases t with
      | nil =>
          simp only [List.getLast?_singleton, Option.some_inj] at h
          subst h
          exact List.mem_singleton_self a
      | cons b u =>
          rw [List.getLast?_cons_cons] at h
          exact List.mem_cons_of_mem a (ih i h)

/-- Where `pyRfind` can land: `-1`, or an index inside the normalised
search window. -/
theorem pyRfind_bounds (s : List Char) (c : Char) (a b : Int) :
    pyRfind s c a b = -1 ∨
      (0 ≤ pyRfind s c a b ∧ pyRfind s c a b < (pyIdx s.length b : Int)) := by
  unfold pyRfind
  split
  next i heq =>
    right
    have hi := getLast?_mem' _ _ heq
    have hmem := List.mem_filter.mp hi
    have h2 := hmem.2
    simp only [Bool.and_eq_true, decide_eq_true_eq] at h2
    refine ⟨Int.natCast_nonneg i, ?_⟩
    exact_mod_cast h2.1.2
  next heq => left; rfl

/-- Every window of `_split_by_size` slices out at most `chunk_size`
characters. -/
theorem loopEnd_slice_le (size : Nat) (text : List Char) (start : Int) :
    (pySlice text start (loopEnd size text start)).length ≤ size := by
  simp only [loopEnd]
  by_cases h1 : start + (size : Int) < (text.length : Int)
  · rw [if_pos h1]
    by_cases h2 : start < max (pyRfind text '.' start (start + (size : Int)))
        (max (pyRfind text '!' start (start + (size : Int)))
          (pyRfind text '?' start (start + (size : Int))))
    · rw [if_pos h2]
      have hb1 := pyRfind_bounds text '.' start (start + (size : Int))
      have hb2 := pyRfind_bounds text '!' start (start + (size : Int))
      have hb3 := pyRfind_bounds text '?' start (start + (size : Int))
      have hpi := pyIdx_le text.length (start + (size : Int))
      rw [pySlice_length]
      unfold pyIdx at hb1 hb2 hb3 ⊢
      split_ifs at * <;> omega
    · rw [if_neg h2]
      exact pySlice_length_le text start (start + (size : Int)) size le_rfl (by omega)
  · rw [if_neg h1]
    exact pySlice_length_le text start (start + (size : Int)) size le_rfl (by omega)

/-- Invariant of the `_split_by_size` loop: when it returns, every emitted
chunk is a non-empty stripped window of at most `chunk_size` characters,
and an already non-empty accumulator stays non-empty. -/
theorem split_loop_some (size ov : Nat) (text : List Char) :
    ∀ (fuel : Nat) (start : Int) (acc l : List (List Char)),
      split_by_size_loop size ov text fuel start acc = some l →
      (∀ c ∈ acc, c.length ≤ size ∧ c ≠ []) →
      (∀ c ∈ l, c.length ≤ size ∧ c ≠ []) ∧ (acc ≠ [] → l ≠ []) := by
  intro fuel
  induction fuel with
  | zero =>
      intro start acc l h
      simp [split_by_size_loop] at h
  | succ k ih =>
      intro start acc l h hacc
      simp only [split_by_size_loop] at h
      by_cases hg : start < (text.length : Int)
      · rw [if_pos hg] at h
        set chunk := pyStrip (pySlice text start (loopEnd size text start)) with hchunk
        have hacc' : ∀ c ∈ (if chunk = [] then acc else acc ++ [chunk]),
            c.length ≤ size ∧ c ≠ [] := by
          intro c hc
          by_cases hcn : chunk = []
          · rw [if_pos hcn] at hc
            exact hacc c hc
          · rw [if_neg hcn] at hc
            rcases List.mem_append.mp hc with hc | hc
            · exact hacc c hc
            · rw [List.mem_singleton] at hc
              subst hc
              refine ⟨?_, hcn⟩
              calc chunk.length
                  ≤ (pySlice text start (loopEnd size text start)).length := by
                    rw [hchunk]; exact pyStrip_length_le _
                _ ≤ size := loopEnd_slice_le size text start
        obtain ⟨hl, hne⟩ := ih _ _ _ h hacc'
        refine ⟨hl, fun hacc0 => hne ?_⟩
        by_cases hcn : chunk = []
        · rw [if_pos hcn]; exact hacc0
        · rw [if_neg hcn]; simp
      · rw [if_neg hg] at h
        have heq : acc = l := Option.some.inj h
        subst heq
        exact ⟨hacc, id⟩

/-- Helper for C3: every chunk `chunk_text` returns has at most
`chunk_size` characters (semantic chunks above the limit are re-split; the
window pass never emits more than `chunk_size`). -/
theorem chunk_text_lengths (size ov fuel : Nat) :
    ∀ (scs : List (List Char)) (acc cs : List (List Char)),
      (scs.foldlM (fun acc chunk =>
        if size < chunk.length then
          (split_by_size size ov fuel chunk).map (fun l => acc ++ l)
        else some (acc ++ [chunk])) acc) = some cs →
      (∀ c ∈ acc, c.length ≤ size) →
      (∀ c ∈ cs, c.length ≤ size) := by
  intro scs
  induction scs with
  | nil =>
      intro acc cs h hacc
      simp only [List.foldlM_nil] at h
      have heq : acc = cs := Option.some.inj h
      subst heq
      exact hacc
  | cons x t ih =>
      intro acc cs h hacc
      rw [List.foldlM_cons] at h
      by_cases hx : size < x.length
      · rw [if_pos hx] at h
        cases hsp : split_by_size size ov fuel x with
        | none => rw [hsp] at h; simp at h
        | some l =>
            rw [hsp] at h
            simp only [Option.map_some', Option.some_bind] at h
            refine ih _ _ h ?_
            intro c hc
            rcases List.mem_append.mp hc with hc | hc
            · exact hacc c hc
            · exact ((split_loop_some size ov x fuel 0 [] l hsp (by simp)).1 c hc).1
      · rw [if_neg hx] at h
        refine ih _ _ h ?_
        intro c hc
        rcases List.mem_append.mp hc with hc | hc
        · exact hacc c hc
        · rw [List.mem_singleton] at hc
          subst hc
          omega

/-- Helper: adjacent-pair facts from a pointwise bound. -/
theorem chain'_of_forall {R : List Char → List Char → Prop} {P : List Char → Prop}
    (hR : ∀ a b, P a → P b → R a b) :
    ∀ l : List (List Char), (∀ x ∈ l, P x) → List.Chain' R l := by
  intro l
  induction l with
  | nil => intro _; trivial
  | cons a t ih =>
      intro h
      cases t with
      | nil => simp
      | cons b u =>
          rw [List.chain'_cons]
          exact ⟨hR a b (h a (by simp)) (h b (by simp)),
            ih fun x hx => h x (List.mem_cons_of_mem a hx)⟩

/-- C3 (amended): the textual overlap between adjacent chunks of
`chunk_text` is bounded by `chunk_size`, not by the configured
`chunk_overlap`: every returned chunk has at most `chunk_size` characters,
which bounds any shared text; the `chunk_overlap` bound fails because the
semantic pass seeds a new chunk with the whole previous paragraph. -/
theorem chunk_text_adjacent_overlap (size ov fuel : Nat) (text : List Char)
    (cs : List (List Char)) (h : chunk_text size ov fuel text = some cs) :
    List.Chain' (fun a b => overlapLen a b ≤ size) cs := by
  have hlen : ∀ c ∈ cs, c.length ≤ size := by
    unfold chunk_text at h
    exact chunk_text_lengths size ov fuel _ [] cs h (by simp)
  exact chain'_of_forall
    (fun a b ha _ => le_trans (overlapLen_le_min a b) (le_trans (min_le_left _ _) ha))
    cs hlen

/-- C3 counterexample: with `chunk_size = 10`, `chunk_overlap = 2`, the
input `"aaaa\n\nbbbb\n\ncccc"` produces adjacent chunks that share the
whole paragraph `"bbbb"` — 4 characters, more than the configured overlap
of 2. -/
theorem chunk_text_overlap_cex :
    chunk_text 10 2 1 "aaaa\n\nbbbb\n\ncccc".data =
      some ["aaaa\n\nbbbb".data, "bbbb\n\ncccc".data] ∧
    2 < overlapLen "aaaa\n\nbbbb".data "bbbb\n\ncccc".data :=
  ⟨by decide, by decide⟩

/-- C3 witness: on the counterexample input the amended bound
(`chunk_size = 10`) does hold for the adjacent chunks. -/
theorem chunk_text_adjacent_overlap_witness :
    List.Chain' (fun a b => overlapLen a b ≤ 10)
      ["aaaa\n\nbbbb".data, "bbbb\n\ncccc".data] :=
  chunk_text_adjacent_overlap 10 2 1 "aaaa\n\nbbbb\n\ncccc".data _ (by decide)

/-- Helper: dropping a prefix keeps every element not erased by the
predicate. -/
theorem mem_dropWhile_of_mem {p : Char → Bool} {l : List Char} {x : Char}
    (hx : x ∈ l) (hpx : ¬p x = true) : x ∈ l.dropWhile p := by
  induction l with
  | nil => simp at hx
  | cons a t ih =>
      by_cases hpa : p a
      · rw [List.dropWhile_cons_of_pos hpa]
        rcases List.mem_cons.mp hx with rfl | hx'
        · exact absurd hpa hpx
        · exact ih hx'
      · rw [List.dropWhile_cons_of_neg hpa]
        exact hx

/-- A string containing a non-whitespace character does not strip to
nothing. -/
theorem pyStrip_ne_nil (s : List Char) (h : ∃ x ∈ s, ¬x.isWhitespace) : pyStrip s ≠ [] := by
  obtain ⟨x, hxs, hx⟩ := h
  unfold pyStrip
  intro hc
  rw [List.reverse_eq_nil_iff, List.dropWhile_eq_nil_iff] at hc
  have hx1 : x ∈ s.dropWhile Char.isWhitespace := mem_dropWhile_of_mem hxs hx
  exact hx (hc x (List.mem_reverse.mpr hx1))

/-- `pyStrip s` is a prefix of the left-stripped string. -/
theorem pyStrip_append (s : List Char) :
    pyStrip s ++ ((s.dropWhile Char.isWhitespace).reverse.takeWhile Char.isWhitespace).reverse
      = s.dropWhile Char.isWhitespace := by
  unfold pyStrip
  rw [← List.reverse_append, List.takeWhile_append_dropWhile, List.reverse_reverse]

/-- The head surviving a `dropWhile` does not satisfy the predicate. -/
theorem dropWhile_head_not {p : Char → Bool} {l : List Char} {c : Char} {cs : List Char}
    (h : l.dropWhile p = c :: cs) : ¬p c = true := by
  induction l with
  | nil => simp [List.dropWhile] at h
  | cons a t ih =>
      by_cases hpa : p a
      · rw [List.dropWhile_cons_of_pos hpa] at h
        exact ih h
      · rw [List.dropWhile_cons_of_neg hpa] at h
        injection h with h1 _
        subst h1
        exact hpa

/-- A non-trivial strip result is non-empty with a non-whitespace head. -/
theorem pyStrip_good (s : List Char) (h : pyStrip s ≠ []) : GoodChunk (pyStrip s) := by
  cases hps : pyStrip s with
  | nil => exact absurd hps h
  | cons c cs =>
      refine ⟨c, cs, rfl, ?_⟩
      have happ := pyStrip_append s
      rw [hps, List.cons_append] at happ
      exact dropWhile_head_not happ.symm

/-- A good chunk stays good under appending on the right. -/
theorem GoodChunk.append {p q : List Char} (h : GoodChunk p) : GoodChunk (p ++ q) := by
  obtain ⟨c, cs, rfl, hc⟩ := h
  exact ⟨c, cs ++ q, by simp, hc⟩

/-- `'\n\n'.join` starts with its first part. -/
theorem joinChunk_cons (p : List Char) (ps : List (List Char)) :
    ∃ q, joinChunk (p :: ps) = p ++ q := by
  cases ps with
  | nil => exact ⟨[], by simp [joinChunk, List.intercalate]⟩
  | cons y t =>
      exact ⟨sep2 ++ (List.intersperse sep2 (y :: t)).flatten,
        by simp [joinChunk, List.intercalate]⟩

/-- A join of good parts is good. -/
theorem joinChunk_good (ps : List (List Char)) (h : ∀ p ∈ ps, GoodChunk p)
    (hne : ps ≠ []) : GoodChunk (joinChunk ps) := by
  cases ps with
  | nil => exact absurd rfl hne
  | cons p t =>
      obtain ⟨q, hq⟩ := joinChunk_cons p t
      rw [hq]
      exact (h p (by simp)).append

/-- Helper: `getLastD` of a non-empty list is an element of it. -/
theorem getLastD_mem : ∀ (l : List (List Char)) (d : List Char), l ≠ [] → l.getLastD d ∈ l := by
  intro l
  induction l with
  | nil => intro d h; exact absurd rfl h
  | cons a t ih =>
      intro d h
      cases t with
      | nil => simp [List.getLastD]
      | cons b u =>
          rw [List.getLastD_cons]
          exact List.mem_cons_of_mem a (ih a (by simp))

/-- One step of the semantic pass keeps every working paragraph and every
emitted chunk good. -/
theorem semStep_inv (size ov : Nat) (st : SemAcc) (para : List Char)
    (hcur : ∀ p ∈ st.current, GoodChunk p) (hch : ∀ ch ∈ st.chunks, GoodChunk ch) :
    (∀ p ∈ (semStep size ov st para).current, GoodChunk p) ∧
    (∀ ch ∈ (semStep size ov st para).chunks, GoodChunk ch) := by
  unfold semStep
  split_ifs with h1 h2 h3
  · exact ⟨hcur, hch⟩
  · -- emit with overlap seed
    have hgq : GoodChunk (pyStrip para) := pyStrip_good para h1
    refine ⟨?_, ?_⟩
    · intro p hp
      rcases List.mem_cons.mp hp with rfl | hp
      · exact hcur _ (getLastD_mem st.current [] h2.2)
      · rw [List.mem_singleton] at hp
        subst hp
        exact hgq
    · intro ch hch'
      rcases List.mem_append.mp hch' with hch' | hch'
      · exact hch ch hch'
      · rw [List.mem_singleton] at hch'
        subst hch'
        exact joinChunk_good _ hcur h2.2
  · -- emit without overlap seed
    have hgq : GoodChunk (pyStrip para) := pyStrip_good para h1
    refine ⟨?_, ?_⟩
    · intro p hp
      rw [List.mem_singleton] at hp
      subst hp
      exact hgq
    · intro ch hch'
      rcases List.mem_append.mp hch' with hch' | hch'
      · exact hch ch hch'
      · rw [List.mem_singleton] at hch'
        subst hch'
        exact joinChunk_good _ hcur h2.2
  · -- accumulate
    have hgq : GoodChunk (pyStrip para) := pyStrip_good para h1
    refine ⟨?_, hch⟩
    intro p hp
    rcases List.mem_append.mp hp with hp | hp
    · exact hcur p hp
    · rw [List.mem_singleton] at hp
      subst hp
      exact hgq

/-- The semantic-pass fold keeps the invariant. -/
theorem sem_fold_inv (size ov : Nat) :
    ∀ (ps : List (List Char)) (st : SemAcc),
      (∀ p ∈ st.current, GoodChunk p) → (∀ ch ∈ st.chunks, GoodChunk ch) →
      (∀ p ∈ (ps.foldl (semStep size ov) st).current, GoodChunk p) ∧
      (∀ ch ∈ (ps.foldl (semStep size ov) st).chunks, GoodChunk ch) := by
  intro ps
  induction ps with
  | nil => intro st h1 h2; exact ⟨h1, h2⟩
  | cons p t ih =>
      intro st h1 h2
      rw [List.foldl_cons]
      obtain ⟨h1', h2'⟩ := semStep_inv size ov st p h1 h2
      exact ih _ h1' h2'

/-- Every chunk the semantic pass emits is non-empty with a non-whitespace
head. -/
theorem sem_all_good (size ov : Nat) (text : List Char) :
    ∀ ch ∈ split_by_semantic_boundaries size ov text, GoodChunk ch := by
  unfold split_by_semantic_boundaries
  obtain ⟨h1, h2⟩ := sem_fold_inv size ov (splitParagraphs text) ⟨[], [], 0⟩
    (by simp) (by simp)
  by_cases hc : ((splitParagraphs text).foldl (semStep size ov) ⟨[], [], 0⟩).current ≠ []
  · rw [if_pos hc]
    intro ch hch
    rcases List.mem_append.mp hch with hch | hch
    · exact h2 ch hch
    · rw [List.mem_singleton] at hch
      subst hch
      exact joinChunk_good _ h1 hc
  · rw [if_neg hc]
    exact h2

/-- A step of the semantic pass never empties a non-empty working chunk. -/
theorem semStep_current_ne (size ov : Nat) (st : SemAcc) (para : List Char)
    (h : st.current ≠ []) : (semStep size ov st para).current ≠ [] := by
  unfold semStep
  split_ifs <;> simp_all

/-- A step of the semantic pass on a non-blank paragraph makes the working
chunk non-empty. -/
theorem semStep_establish (size ov : Nat) (st : SemAcc) (para : List Char)
    (h : pyStrip para ≠ []) : (semStep size ov st para).current ≠ [] := by
  unfold semStep
  split_ifs <;> simp_all

/-- The semantic-pass fold keeps a non-empty working chunk non-empty. -/
theorem sem_fold_current_ne (size ov : Nat) :
    ∀ (ps : List (List Char)) (st : SemAcc), st.current ≠ [] →
      (ps.foldl (semStep size ov) st).current ≠ [] := by
  intro ps
  induction ps with
  | nil => intro st h; exact h
  | cons p t ih =>
      intro st h
      rw [List.foldl_cons]
      exact ih _ (semStep_current_ne size ov st p h)

/-- Every non-whitespace character of the input survives into some
paragraph of the separator split. -/
theorem splitParasGo_covers :
    ∀ (input cur : List Char) (pending : Nat) (x : Char), ¬x.isWhitespace →
      (x ∈ cur ∨ x ∈ input) → ∃ p ∈ splitParasGo cur pending input, x ∈ p := by
  intro input
  induction input with
  | nil =>
      intro cur pending x hx hmem
      rcases hmem with hmem | hmem
      · unfold splitParasGo
        by_cases hp : 2 ≤ pending
        · rw [if_pos hp]
          exact ⟨cur.reverse, by simp, List.mem_reverse.mpr hmem⟩
        · rw [if_neg hp]
          refine ⟨(List.replicate pending '\n' ++ cur).reverse, by simp, ?_⟩
          rw [List.mem_reverse]
          exact List.mem_append.mpr (Or.inr hmem)
      · simp at hmem
  | cons c rest ih =>
      intro cur pending x hx hmem
      unfold splitParasGo
      by_cases hc : c = '\n'
      · rw [if_pos hc]
        apply ih cur (pending + 1) x hx
        rcases hmem with hmem | hmem
        · exact Or.inl hmem
        · rcases List.mem_cons.mp hmem with rfl | hmem
          · rw [hc] at hx
            exact absurd (by decide) hx
          · exact Or.inr hmem
      · rw [if_neg hc]
        by_cases hp : 2 ≤ pending
        · rw [if_pos hp]
          rcases hmem with hmem | hmem
          · exact ⟨cur.reverse, by simp, List.mem_reverse.mpr hmem⟩
          · rcases List.mem_cons.mp hmem with rfl | hmem
            · obtain ⟨p, hp1, hp2⟩ := ih [x] 0 x hx (Or.inl (by simp))
              exact ⟨p, List.mem_cons_of_mem _ hp1, hp2⟩
            · obtain ⟨p, hp1, hp2⟩ := ih [c] 0 x hx (Or.inr hmem)
              exact ⟨p, List.mem_cons_of_mem _ hp1, hp2⟩
        · rw [if_neg hp]
          apply ih _ 0 x hx
          rcases hmem with hmem | hmem
          · refine Or.inl (List.mem_cons_of_mem c ?_)
            exact List.mem_append.mpr (Or.inr hmem)
          · rcases List.mem_cons.mp hmem with rfl | hmem
            · exact Or.inl (List.mem_cons_self _ _)
            · exact Or.inr hmem

/-- An input with a non-whitespace character yields at least one semantic
chunk. -/
theorem sem_nonempty (size ov : Nat) (text : List Char)
    (h : ∃ x ∈ text, ¬x.isWhitespace) :
    split_by_semantic_boundaries size ov text ≠ [] := by
  obtain ⟨x, hxt, hx⟩ := h
  obtain ⟨p, hp, hxp⟩ := splitParasGo_covers text [] 0 x hx (Or.inr hxt)
  have hps : pyStrip p ≠ [] := pyStrip_ne_nil p ⟨x, hxp, hx⟩
  have hp' : p ∈ splitParagraphs text := hp
  obtain ⟨l1, l2, hsplit⟩ := List.append_of_mem hp'
  unfold split_by_semantic_boundaries
  rw [hsplit, List.foldl_append, List.foldl_cons]
  have h1 : (semStep size ov (l1.foldl (semStep size ov) ⟨[], [], 0⟩) p).current ≠ [] :=
    semStep_establish size ov _ p hps
  have h2 := sem_fold_current_ne size ov l2 _ h1
  rw [if_pos h2]
  simp

/-- With a positive `chunk_size` the first window of `_split_by_size`
starts at least one character in. -/
theorem loopEnd_pos (size : Nat) (text : List Char) (hsize : 0 < size) :
    1 ≤ loopEnd size text 0 := by
  simp only [loopEnd]
  split_ifs with h1 h2 <;> omega

/-- `_split_by_size` of a good over-long chunk returns at least one chunk
(when it returns at all). -/
theorem split_by_size_good_nonempty (size ov fuel : Nat) (text : List Char)
    (l : List (List Char)) (hsize : 0 < size) (hgood : GoodChunk text)
    (h : split_by_size size ov fuel text = some l) : l ≠ [] := by
  obtain ⟨c, cs, htext, hc⟩ := hgood
  cases fuel with
  | zero => simp [split_by_size, split_by_size_loop] at h
  | succ k =>
      unfold split_by_size at h
      simp only [split_by_size_loop] at h
      have hlen : 0 < text.length := by rw [htext]; simp
      rw [if_pos (by exact_mod_cast hlen : (0 : Int) < (text.length : Int))] at h
      have hchunk : pyStrip (pySlice text 0 (loopEnd size text 0)) ≠ [] := by
        apply pyStrip_ne_nil
        refine ⟨c, ?_, hc⟩
        have he := loopEnd_pos size text hsize
        unfold pySlice
        have h0 : pyIdx text.length 0 = 0 := by unfold pyIdx; simp
        rw [h0, List.drop_zero]
        have hb : 1 ≤ pyIdx text.length (loopEnd size text 0) := by
          unfold pyIdx
          split_ifs <;> omega
        cases hpb : pyIdx text.length (loopEnd size text 0) with
        | zero => omega
        | succ m =>
            rw [htext, List.take_succ_cons]
            exact List.mem_cons_self _ _
      rw [if_neg hchunk] at h
      refine (split_loop_some size ov text k _ _ l h ?_).2 (by simp)
      intro d hd
      rw [List.nil_append, List.mem_singleton] at hd
      subst hd
      refine ⟨?_, hchunk⟩
      calc (pyStrip (pySlice text 0 (loopEnd size text 0))).length
          ≤ (pySlice text 0 (loopEnd size text 0)).length := pyStrip_length_le _
        _ ≤ size := loopEnd_slice_le size text 0

/-- Helper for C4: the re-splitting fold keeps chunks non-empty and, fed at
least one good chunk, returns at least one chunk. -/
theorem chunk_text_fold_nonempty (size ov fuel : Nat) (hsize : 0 < size) :
    ∀ (scs : List (List Char)) (acc cs : List (List Char)),
      (∀ ch ∈ scs, GoodChunk ch) →
      (scs.foldlM (fun acc chunk =>
        if size < chunk.length then
          (split_by_size size ov fuel chunk).map (fun l => acc ++ l)
        else some (acc ++ [chunk])) acc) = some cs →
      (∀ c ∈ acc, c ≠ []) →
      (∀ c ∈ cs, c ≠ []) ∧ ((acc ≠ [] ∨ scs ≠ []) → cs ≠ []) := by
  intro scs
  induction scs with
  | nil =>
      intro acc cs _ h hacc
      simp only [List.foldlM_nil] at h
      have heq : acc = cs := Option.some.inj h
      subst heq
      refine ⟨hacc, ?_⟩
      rintro (h | h)
      · exact h
      · exact absurd rfl h
  | cons x t ih =>
      intro acc cs hg h hacc
      rw [List.foldlM_cons] at h
      by_cases hx : size < x.length
      · rw [if_pos hx] at h
        cases hsp : split_by_size size ov fuel x with
        | none => rw [hsp] at h; simp at h
        | some l =>
            rw [hsp] at h
            simp only [Option.map_some', Option.some_bind] at h
            have hlne : l ≠ [] :=
              split_by_size_good_nonempty size ov fuel x l hsize (hg x (by simp)) hsp
            have hlmem : ∀ c ∈ l, c ≠ [] := fun c hc =>
              ((split_loop_some size ov x fuel 0 [] l hsp (by simp)).1 c hc).2
            obtain ⟨h1, h2⟩ := ih _ _ (fun ch hch => hg ch (List.mem_cons_of_mem x hch)) h
              (by intro d hd
                  rcases List.mem_append.mp hd with hd | hd
                  · exact hacc d hd
                  · exact hlmem d hd)
            refine ⟨h1, fun _ => h2 (Or.inl ?_)⟩
            intro hcon
            rw [List.append_eq_nil] at hcon
            exact hlne hcon.2
      · rw [if_neg hx] at h
        have hxne : x ≠ [] := by
          obtain ⟨a, as, hxe, -⟩ := hg x (by simp)
          rw [hxe]
          simp
        have hacc' : ∀ c ∈ acc ++ [x], c ≠ [] := by
          intro d hd
          rcases List.mem_append.mp hd with hd | hd
          · exact hacc d hd
          · rw [List.mem_singleton] at hd
            subst hd
            exact hxne
        obtain ⟨h1, h2⟩ := ih _ _ (fun ch hch => hg ch (List.mem_cons_of_mem x hch)) h hacc'
        exact ⟨h1, fun _ => h2 (Or.inl (by simp))⟩

/-- C4 (amended): for a positive `chunk_size` and an input containing at
least one non-whitespace character, whenever `chunk_text` returns (its
window loop can diverge, see C10) it returns a non-empty sequence of
chunks none of which is the empty string.  For whitespace-only non-empty
input it returns the empty sequence (see the counterexample). -/
theorem chunk_text_nonempty (size ov fuel : Nat) (text : List Char) (cs : List (List Char))
    (hsize : 0 < size) (htext : ∃ x ∈ text, ¬x.isWhitespace)
    (h : chunk_text size ov fuel text = some cs) :
    cs ≠ [] ∧ ∀ c ∈ cs, c ≠ [] := by
  unfold chunk_text at h
  have hgood := sem_all_good size ov text
  have hne := sem_nonempty size ov text htext
  obtain ⟨h1, h2⟩ := chunk_text_fold_nonempty size ov fuel hsize _ [] cs hgood h (by simp)
  exact ⟨h2 (Or.inr hne), h1⟩

/-- C4 counterexample: the one-character input `" "` is a non-empty string
but `chunk_text` returns the empty sequence on it. -/
theorem chunk_text_whitespace_cex :
    chunk_text 10 2 1 " ".data = some [] ∧ (" " : String) ≠ "" :=
  ⟨by decide, by decide⟩

/-- C4 witness: a concrete non-blank input. -/
theorem chunk_text_nonempty_witness :
    (["hi".data] : List (List Char)) ≠ [] ∧ ∀ c ∈ [("hi".data : List Char)], c ≠ [] :=
  chunk_text_nonempty 10 2 1 "hi".data ["hi".data] (by decide) (by decide) (by decide)

/-! ### Claim C10: non-termination of the sliding-window loop -/

/-- Helper for C10: the loop state `start = -5` on `loopText` reproduces
itself (the window collapses to an empty slice and `start` is recomputed to
`-5`), so from it the loop never exits, whatever the fuel. -/
theorem split_loop_fixed_point (n : Nat) (acc : List (List Char)) :
    split_by_size_loop 10 5 loopText n (-5) acc = none := by
  induction n generalizing acc with
  | zero => rfl
  | succ k ih =>
      have h : split_by_size_loop 10 5 loopText (k + 1) (-5) acc
             = split_by_size_loop 10 5 loopText k (-5) acc := rfl
      rw [h]
      exact ih acc

/-- C10: `_split_by_size` does not terminate on every input even with
`0 ≤ chunk_overlap < chunk_size`: with `chunk_size = 10`,
`chunk_overlap = 5` and the 20-character `loopText` (whose only sentence
mark sits right after position 0) the loop reaches `start = -5` after two
iterations and then loops forever — no fuel suffices. -/
theorem split_by_size_diverges :
    ∀ fuel : Nat, split_by_size 10 5 fuel loopText = none := by
  intro fuel
  match fuel with
  | 0 => rfl
  | 1 => rfl
  | (n + 2) =>
      have h : split_by_size 10 5 (n + 2) loopText
             = split_by_size_loop 10 5 loopText n (-5) [['a', '.']] := rfl
      rw [h]
      exact split_loop_fixed_point n _

end LibCodegen
